import Mathlib

/-!
Verification of a minimal WAL-backed key-value store.

The development shallowly embeds the data model and operations of the
store: commands, transactions, the write-ahead-log port with its
in-memory backend, the on-disk replay iterator, the key-value state,
and the server orchestrating identifier assignment, append, apply and
recovery. Rust's `HashMap<String, String>` is modelled as an
association list whose insert replaces the first binding for the key
(or appends a fresh one), which gives the same key-to-value mapping.
Fallible operations return `Except Err`.
-/

set_option autoImplicit false

namespace Keyval

/-- Command payload of a transaction: `Set {key, value}`, `Get {key}`, `Nop`. -/
inductive Command where
  | Set (key value : String)
  | Get (key : String)
  | Nop
deriving DecidableEq

/-- A durable log record: identifier plus command. -/
structure Transaction where
  id : Nat
  command : Command
deriving DecidableEq

/-- Error kinds of the store: storage faults, decode failures during
replay, and sequencing violations during recovery. -/
inductive Err where
  | ioErr
  | decodeErr
  | sequencing (got expected : Nat)
deriving DecidableEq

/-- Decidable equality for `Except`, used to evaluate the definitions
on concrete inputs. -/
instance instDecEqExcept {ε α : Type} [DecidableEq ε] [DecidableEq α] :
    DecidableEq (Except ε α) := fun x y =>
  match x, y with
  | Except.error a, Except.error b =>
    if h : a = b then isTrue (by rw [h])
    else isFalse (fun hc => h (Except.error.inj hc))
  | Except.error _, Except.ok _ => isFalse (fun hc => Except.noConfusion hc)
  | Except.ok _, Except.error _ => isFalse (fun hc => Except.noConfusion hc)
  | Except.ok a, Except.ok b =>
    if h : a = b then isTrue (by rw [h])
    else isFalse (fun hc => h (Except.ok.inj hc))

/-- Lookup in the association-list model of `HashMap<String, String>`:
the value bound to `key`, if any. -/
def kvLookup (kv : List (String × String)) (key : String) : Option String :=
  match kv with
  | [] => none
  | p :: rest => if p.1 = key then some p.2 else kvLookup rest key

/-- Insert in the association-list model of `HashMap<String, String>`:
replaces the first binding of `key` or appends a fresh one. -/
def kvInsert (kv : List (String × String)) (key value : String) :
    List (String × String) :=
  match kv with
  | [] => [(key, value)]
  | p :: rest =>
    if p.1 = key then (key, value) :: rest else p :: kvInsert rest key value

/-- The materialized key-value view. -/
structure State where
  kv : List (String × String)
deriving DecidableEq

/-- `State::apply`: mutates the view by one transaction and returns the
observable result string.  Embedded as a function from the old state to
the new state paired with the result. -/
def State.apply (s : State) (transaction : Transaction) : State × String :=
  match transaction.command with
  | Command.Set key value => ({ kv := kvInsert s.kv key value }, "")
  | Command.Get key => (s, (kvLookup s.kv key).getD "")
  | Command.Nop => (s, "")

/-- The `WriteAheadLog` trait: a backend state type `σ` with `append`
and `replay`.  `replay` is consumed eagerly as the list of elements the
replay iterator would yield (each element independently fallible). -/
structure WriteAheadLog (σ : Type) where
  append : σ → Transaction → Except Err σ
  replay : σ → Except Err (List (Except Err Transaction))

/-- `InMemoryWriteAheadLog`: the volatile backend, a vector of
transactions; append pushes a clone, replay yields every stored
transaction in order, infallibly. -/
def InMemoryWriteAheadLog : WriteAheadLog (List Transaction) where
  append := fun data transaction => Except.ok (data ++ [transaction])
  replay := fun data => Except.ok (data.map Except.ok)

/-- One line read from the on-disk log: either a non-empty line that
decodes to a transaction (`line (some t)`), a non-empty line that fails
to decode (`line none`), or a read error. -/
inductive LineRead where
  | line (decoded : Option Transaction)
  | readErr
deriving DecidableEq

/-- `OnDiskReplayIterator`: a reader over the remaining lines plus the
`error` flag that permanently exhausts the iterator. -/
structure OnDiskReplayIterator where
  lines : List LineRead
  error : Bool
deriving DecidableEq

/-- `OnDiskReplayIterator::next`: `none` once the error flag is set or
at end of stream; a decodable line yields `ok`; a non-decodable line or
a read error yields `error` and sets the flag. -/
def OnDiskReplayIterator.next (it : OnDiskReplayIterator) :
    Option (Except Err Transaction) × OnDiskReplayIterator :=
  if it.error then (none, it)
  else
    match it.lines with
    | [] => (none, it)
    | LineRead.line (some t) :: rest =>
      (some (Except.ok t), { lines := rest, error := false })
    | LineRead.line none :: rest =>
      (some (Except.error Err.decodeErr), { lines := rest, error := true })
    | LineRead.readErr :: rest =>
      (some (Except.error Err.ioErr), { lines := rest, error := true })

/-- The `n`-indexed pull after the current one: `pullN it n` performs
`n + 1` successive `next` calls and returns the last outcome. -/
def OnDiskReplayIterator.pullN (it : OnDiskReplayIterator) :
    Nat → Option (Except Err Transaction) × OnDiskReplayIterator
  | 0 => it.next
  | Nat.succ n => (it.next.2).pullN n

/-- Pull up to `n` elements from the iterator, collecting everything it
yields before it reports exhaustion. -/
def OnDiskReplayIterator.takeItems (it : OnDiskReplayIterator) :
    Nat → List (Except Err Transaction)
  | 0 => []
  | Nat.succ n =>
    match it.next with
    | (none, _) => []
    | (some x, it2) => x :: it2.takeItems n

/-- Tokenizer worker: consume the characters, accumulating the current
token in reverse; whitespace finishes the current token, if non-empty. -/
def splitWhitespaceAux : List Char → List Char → List String
  | [], [] => []
  | [], acc => [String.mk acc.reverse]
  | c :: cs, acc =>
    if c.isWhitespace then
      match acc with
      | [] => splitWhitespaceAux cs []
      | _ => String.mk acc.reverse :: splitWhitespaceAux cs []
    else splitWhitespaceAux cs (c :: acc)

/-- Rust's `str::split_whitespace`: the maximal non-empty tokens
separated by runs of whitespace. -/
def splitWhitespace (s : String) : List String :=
  splitWhitespaceAux s.data []

/-- The `Server` struct: transaction counter, WAL backend state, and
the materialized view. -/
structure Server (σ : Type) where
  transaction_id : Nat
  write_ahead_log : σ
  state : State
deriving DecidableEq

/-- `Server::new`: counter 0, the given backend, empty state. -/
def Server.new {σ : Type} (write_ahead_log : σ) : Server σ :=
  { transaction_id := 0, write_ahead_log := write_ahead_log
    state := { kv := [] } }

/-- `Server::parse`: tokens `["GET", key]` parse to `Get`, tokens
`["SET", key, value]` parse to `Set`, anything else to `Nop`. -/
def Server.parse (query : String) : Command :=
  match splitWhitespace query with
  | ["GET", key] => Command.Get key
  | ["SET", key, value] => Command.Set key value
  | _ => Command.Nop

/-- `Server::execute`: build a transaction with the current counter,
increment the counter, append (propagating failure), then apply.  The
returned server is the mutated `self`, even on failure. -/
def Server.execute {σ : Type} (w : WriteAheadLog σ) (s : Server σ)
    (query : String) : Server σ × Except Err String :=
  let command := Server.parse query
  let transaction : Transaction := { id := s.transaction_id, command := command }
  let s1 : Server σ := { s with transaction_id := s.transaction_id + 1 }
  match w.append s1.write_ahead_log transaction with
  | Except.error e => (s1, Except.error e)
  | Except.ok d =>
    let r := s1.state.apply transaction
    ({ s1 with write_ahead_log := d, state := r.1 }, Except.ok r.2)

/-- The loop body of `Server::recover` over the elements the replay
iterator yields: a failed element aborts; a transaction with a smaller
id is skipped; a larger id is a sequencing violation; an equal id is
applied and advances the counter. -/
def Server.recoverLoop {σ : Type} (s : Server σ) :
    List (Except Err Transaction) → Server σ × Except Err Unit
  | [] => (s, Except.ok ())
  | Except.error e :: _ => (s, Except.error e)
  | Except.ok t :: rest =>
    if t.id < s.transaction_id then
      Server.recoverLoop s rest
    else if t.id > s.transaction_id then
      (s, Except.error (Err.sequencing t.id s.transaction_id))
    else
      Server.recoverLoop
        { s with state := (s.state.apply t).1
                 transaction_id := s.transaction_id + 1 } rest

/-- `Server::recover`: obtain the replay elements (propagating failure)
and run the reconciliation loop. -/
def Server.recover {σ : Type} (w : WriteAheadLog σ) (s : Server σ) :
    Server σ × Except Err Unit :=
  match w.replay s.write_ahead_log with
  | Except.error e => (s, Except.error e)
  | Except.ok items => Server.recoverLoop s items

/-- Execute a sequence of queries, threading the server through. -/
def Server.executeAll {σ : Type} (w : WriteAheadLog σ) (s : Server σ) :
    List String → Server σ
  | [] => s
  | q :: qs => Server.executeAll w (Server.execute w s q).1 qs

/-- Whether every execute in the sequence succeeds. -/
def Server.executeAllOk {σ : Type} (w : WriteAheadLog σ) (s : Server σ) :
    List String → Bool
  | [] => true
  | q :: qs =>
    match Server.execute w s q with
    | (s2, Except.ok _) => Server.executeAllOk w s2 qs
    | (_, Except.error _) => false

/-- Append a sequence of transactions, threading the backend state and
propagating the first failure. -/
def appendAll {σ : Type} (w : WriteAheadLog σ) (d : σ) :
    List Transaction → Except Err σ
  | [] => Except.ok d
  | t :: ts =>
    match w.append d t with
    | Except.error e => Except.error e
    | Except.ok d2 => appendAll w d2 ts

/-- The transactions `execute` builds from queries `qs` when the
counter starts at `n`. -/
def txnsFrom (n : Nat) : List String → List Transaction
  | [] => []
  | q :: qs => { id := n, command := Server.parse q } :: txnsFrom (n + 1) qs

/-- Fold `State.apply` over a list of transactions. -/
def applyAll (s : State) : List Transaction → State
  | [] => s
  | t :: ts => applyAll (s.apply t).1 ts

/-- A backend whose `append` always reports a storage fault, used to
exercise the failure path of `execute`. -/
def FailingWriteAheadLog : WriteAheadLog Unit where
  append := fun _ _ => Except.error Err.ioErr
  replay := fun _ => Except.ok []

theorem kvLookup_kvInsert_self (kv : List (String × String)) (k v : String) :
    kvLookup (kvInsert kv k v) k = some v := by
  induction kv with
  | nil => simp [kvInsert, kvLookup]
  | cons p rest ih =>
    by_cases h : p.1 = k
    · simp [kvInsert, kvLookup, h]
    · simp [kvInsert, kvLookup, h, ih]

theorem kvLookup_kvInsert_ne (kv : List (String × String)) (k v k2 : String)
    (hne : k2 ≠ k) : kvLookup (kvInsert kv k v) k2 = kvLookup kv k2 := by
  have hne2 : ¬ (k = k2) := fun h => hne h.symm
  induction kv with
  | nil => simp [kvInsert, kvLookup, hne2]
  | cons p rest ih =>
    by_cases h : p.1 = k
    · simp [kvInsert, kvLookup, h, hne2]
    · simp [kvInsert, kvLookup, h, ih]

theorem execute_inmem (n : Nat) (d : List Transaction) (st : State) (q : String) :
    Server.execute InMemoryWriteAheadLog (Server.mk n d st) q =
      (Server.mk (n + 1) (d ++ [{ id := n, command := Server.parse q }])
        ((st.apply { id := n, command := Server.parse q }).1),
       Except.ok ((st.apply { id := n, command := Server.parse q }).2)) := rfl

theorem recover_inmem (s : Server (List Transaction)) :
    Server.recover InMemoryWriteAheadLog s =
      Server.recoverLoop s (s.write_ahead_log.map Except.ok) := rfl

theorem appendAll_inmem : ∀ (ts d : List Transaction),
    appendAll InMemoryWriteAheadLog d ts = Except.ok (d ++ ts)
  | [], d => by simp [appendAll]
  | t :: ts, d => by
    have h : InMemoryWriteAheadLog.append d t = Except.ok (d ++ [t]) := rfl
    simp only [appendAll, h]
    rw [appendAll_inmem ts (d ++ [t])]
    simp

theorem executeAll_inmem : ∀ (qs : List String) (n : Nat) (d : List Transaction) (st : State),
    Server.executeAll InMemoryWriteAheadLog (Server.mk n d st) qs =
      Server.mk (n + qs.length) (d ++ txnsFrom n qs) (applyAll st (txnsFrom n qs))
  | [], n, d, st => by simp [Server.executeAll, txnsFrom, applyAll]
  | q :: qs, n, d, st => by
    simp only [Server.executeAll, execute_inmem, txnsFrom, applyAll, List.length_cons]
    rw [executeAll_inmem qs (n + 1)
      (d ++ [({ id := n, command := Server.parse q } : Transaction)])
      ((st.apply { id := n, command := Server.parse q }).1)]
    simp [List.append_assoc]
    omega

theorem executeAllOk_inmem : ∀ (qs : List String) (s : Server (List Transaction)),
    Server.executeAllOk InMemoryWriteAheadLog s qs = true
  | [], _ => rfl
  | q :: qs, s => by
    cases s with
    | mk n d st =>
      simp only [Server.executeAllOk, execute_inmem]
      exact executeAllOk_inmem qs _

theorem recoverLoop_wal {σ : Type} : ∀ (items : List (Except Err Transaction)) (s : Server σ),
    (Server.recoverLoop s items).1.write_ahead_log = s.write_ahead_log
  | [], s => rfl
  | Except.error e :: rest, s => rfl
  | Except.ok t :: rest, s => by
    simp only [Server.recoverLoop]
    by_cases h1 : t.id < s.transaction_id
    · simp only [if_pos h1]
      exact recoverLoop_wal rest s
    · by_cases h2 : t.id > s.transaction_id
      · simp [if_neg h1, if_pos h2]
      · simp only [if_neg h1, if_neg h2]
        exact recoverLoop_wal rest _

theorem recoverLoop_mono {σ : Type} : ∀ (items : List (Except Err Transaction)) (s : Server σ),
    s.transaction_id ≤ (Server.recoverLoop s items).1.transaction_id
  | [], s => le_refl _
  | Except.error e :: rest, s => le_refl _
  | Except.ok t :: rest, s => by
    simp only [Server.recoverLoop]
    by_cases h1 : t.id < s.transaction_id
    · simp only [if_pos h1]
      exact recoverLoop_mono rest s
    · by_cases h2 : t.id > s.transaction_id
      · simp [if_neg h1, if_pos h2]
      · simp only [if_neg h1, if_neg h2]
        have h3 := recoverLoop_mono rest
          { s with state := (s.state.apply t).1, transaction_id := s.transaction_id + 1 }
        exact le_trans (Nat.le_succ _) h3

theorem recoverLoop_ok_ids {σ : Type} :
    ∀ (items : List (Except Err Transaction)) (s s1 : Server σ),
    Server.recoverLoop s items = (s1, Except.ok ()) →
    ∀ x ∈ items, ∃ t, x = Except.ok t ∧ t.id < s1.transaction_id
  | [], s, s1, h => by simp
  | Except.error e :: rest, s, s1, h => by
    simp [Server.recoverLoop] at h
  | Except.ok t :: rest, s, s1, h => by
    simp only [Server.recoverLoop] at h
    by_cases h1 : t.id < s.transaction_id
    · rw [if_pos h1] at h
      intro x hx
      rcases List.mem_cons.mp hx with hx | hx
      · subst hx
        refine ⟨t, rfl, lt_of_lt_of_le h1 ?_⟩
        have := recoverLoop_mono (σ := σ) rest s
        rw [h] at this
        exact this
      · exact recoverLoop_ok_ids rest s s1 h x hx
    · by_cases h2 : t.id > s.transaction_id
      · rw [if_neg h1, if_pos h2] at h
        exact absurd (congrArg Prod.snd h) (by simp)
      · rw [if_neg h1, if_neg h2] at h
        intro x hx
        rcases List.mem_cons.mp hx with hx | hx
        · subst hx
          refine ⟨t, rfl, ?_⟩
          have heq : t.id = s.transaction_id := le_antisymm (not_lt.mp h2) (not_lt.mp h1)
          have := recoverLoop_mono (σ := σ) rest
            { s with state := (s.state.apply t).1, transaction_id := s.transaction_id + 1 }
          rw [h] at this
          simp at this
          omega
        · exact recoverLoop_ok_ids rest _ s1 h x hx

theorem recoverLoop_skip_all {σ : Type} :
    ∀ (items : List (Except Err Transaction)) (s : Server σ),
    (∀ x ∈ items, ∃ t, x = Except.ok t ∧ t.id < s.transaction_id) →
    Server.recoverLoop s items = (s, Except.ok ())
  | [], s, _ => rfl
  | x :: rest, s, h => by
    rcases h x (List.mem_cons_self x rest) with ⟨t, hx, hlt⟩
    subst hx
    simp only [Server.recoverLoop, if_pos hlt]
    exact recoverLoop_skip_all rest s (fun y hy => h y (List.mem_cons_of_mem _ hy))

theorem recoverLoop_append_ok {σ : Type} :
    ∀ (xs ys : List (Except Err Transaction)) (s s1 : Server σ),
    Server.recoverLoop s xs = (s1, Except.ok ()) →
    Server.recoverLoop s (xs ++ ys) = Server.recoverLoop s1 ys
  | [], ys, s, s1, h => by
    simp only [Server.recoverLoop] at h
    obtain ⟨rfl, -⟩ := Prod.mk.injEq .. ▸ And.intro (congrArg Prod.fst h) (congrArg Prod.snd h)
    simp
  | Except.error e :: rest, ys, s, s1, h => by
    simp [Server.recoverLoop] at h
  | Except.ok t :: rest, ys, s, s1, h => by
    simp only [Server.recoverLoop, List.cons_append] at h ⊢
    by_cases h1 : t.id < s.transaction_id
    · rw [if_pos h1] at h ⊢
      exact recoverLoop_append_ok rest ys s s1 h
    · by_cases h2 : t.id > s.transaction_id
      · rw [if_neg h1, if_pos h2] at h
        exact absurd (congrArg Prod.snd h) (by simp)
      · rw [if_neg h1, if_neg h2] at h ⊢
        exact recoverLoop_append_ok rest ys _ s1 h

theorem recoverLoop_contig {σ : Type} :
    ∀ (qs : List String) (n : Nat) (w : σ) (st : State),
    Server.recoverLoop (Server.mk n w st) ((txnsFrom n qs).map Except.ok) =
      (Server.mk (n + qs.length) w (applyAll st (txnsFrom n qs)), Except.ok ())
  | [], n, w, st => by simp [txnsFrom, Server.recoverLoop, applyAll]
  | q :: qs, n, w, st => by
    simp only [txnsFrom, List.map_cons, Server.recoverLoop, applyAll, List.length_cons]
    rw [if_neg (lt_irrefl n), if_neg (lt_irrefl n)]
    rw [recoverLoop_contig qs (n + 1) w ((st.apply { id := n, command := Server.parse q }).1)]
    simp
    omega

theorem next_error_true (it : OnDiskReplayIterator) (h : it.error = true) :
    it.next = (none, it) := by
  simp [OnDiskReplayIterator.next, h]

theorem pullN_error_true (it : OnDiskReplayIterator) (h : it.error = true) :
    ∀ n, it.pullN n = (none, it)
  | 0 => next_error_true it h
  | Nat.succ n => by
    rw [OnDiskReplayIterator.pullN, next_error_true it h]
    exact pullN_error_true it h n

theorem takeItems_error_true (it : OnDiskReplayIterator) (h : it.error = true) :
    ∀ n, it.takeItems n = []
  | 0 => rfl
  | Nat.succ n => by
    rw [OnDiskReplayIterator.takeItems, next_error_true it h]

theorem next_failure_sets_error (it it2 : OnDiskReplayIterator) (e : Err)
    (h : it.next = (some (Except.error e), it2)) : it2.error = true := by
  rcases it with ⟨lines, err⟩
  cases err with
  | true => simp [OnDiskReplayIterator.next] at h
  | false =>
    cases lines with
    | nil => simp [OnDiskReplayIterator.next] at h
    | cons l rest =>
      cases l with
      | line d =>
        cases d with
        | none =>
          simp [OnDiskReplayIterator.next] at h
          rw [← h.2]
        | some t => simp [OnDiskReplayIterator.next] at h
      | readErr =>
        simp [OnDiskReplayIterator.next] at h
        rw [← h.2]

/-- C1: for any sequence of execute calls against a fresh server backed
by the in-memory WAL, every call succeeds, and a fresh server
(counter 0, empty state) over the same WAL backend recovers
successfully to a state equal to the state at the end of the original
sequence. -/
theorem recovery_reproduces_state (qs : List String) :
    Server.executeAllOk InMemoryWriteAheadLog (Server.new ([] : List Transaction)) qs = true ∧
    (Server.recover InMemoryWriteAheadLog
      (Server.new (Server.executeAll InMemoryWriteAheadLog
        (Server.new ([] : List Transaction)) qs).write_ahead_log)).2 = Except.ok () ∧
    (Server.recover InMemoryWriteAheadLog
      (Server.new (Server.executeAll InMemoryWriteAheadLog
        (Server.new ([] : List Transaction)) qs).write_ahead_log)).1.state =
      (Server.executeAll InMemoryWriteAheadLog (Server.new ([] : List Transaction)) qs).state := by
  have hex : Server.executeAll InMemoryWriteAheadLog (Server.new ([] : List Transaction)) qs =
      Server.mk qs.length (txnsFrom 0 qs) (applyAll { kv := [] } (txnsFrom 0 qs)) := by
    rw [show Server.new ([] : List Transaction) = Server.mk 0 [] { kv := [] } from rfl,
      executeAll_inmem]
    simp
  refine ⟨executeAllOk_inmem qs _, ?_, ?_⟩
  · rw [hex, recover_inmem]
    simp only [Server.new]
    rw [recoverLoop_contig]
  · rw [hex, recover_inmem]
    simp only [Server.new]
    rw [recoverLoop_contig]

/-- C2: at any point of the recovery loop, a replayed transaction whose
id is below the counter is skipped (the loop continues with the server
unchanged), an id above the counter aborts with a sequencing-violation
error, and an id equal to the counter is applied to the state and
increments the counter. -/
theorem recover_reconciliation {σ : Type} (s : Server σ) (t : Transaction)
    (rest : List (Except Err Transaction)) :
    (t.id < s.transaction_id →
      Server.recoverLoop s (Except.ok t :: rest) = Server.recoverLoop s rest) ∧
    (t.id > s.transaction_id →
      Server.recoverLoop s (Except.ok t :: rest) =
        (s, Except.error (Err.sequencing t.id s.transaction_id))) ∧
    (t.id = s.transaction_id →
      Server.recoverLoop s (Except.ok t :: rest) =
        Server.recoverLoop
          { s with state := (s.state.apply t).1,
                   transaction_id := s.transaction_id + 1 } rest) := by
  refine ⟨fun h1 => by simp [Server.recoverLoop, h1], fun h2 => ?_, fun h3 => ?_⟩
  · have h1 : ¬ t.id < s.transaction_id := by omega
    simp [Server.recoverLoop, h1, h2]
  · have h1 : ¬ t.id < s.transaction_id := by omega
    have h2 : ¬ t.id > s.transaction_id := by omega
    simp [Server.recoverLoop, h1, h2]

theorem recover_reconciliation_witness :
    Server.recoverLoop (Server.mk 1 ([] : List Transaction) { kv := [] })
      [Except.ok { id := 0, command := Command.Nop }] =
      Server.recoverLoop (Server.mk 1 ([] : List Transaction) { kv := [] }) [] ∧
    Server.recoverLoop (Server.mk 1 ([] : List Transaction) { kv := [] })
      [Except.ok { id := 5, command := Command.Nop }] =
      (Server.mk 1 ([] : List Transaction) { kv := [] },
        Except.error (Err.sequencing 5 1)) ∧
    Server.recoverLoop (Server.mk 1 ([] : List Transaction) { kv := [] })
      [Except.ok { id := 1, command := Command.Nop }] =
      Server.recoverLoop (Server.mk 2 ([] : List Transaction) { kv := [] }) [] :=
  ⟨(recover_reconciliation (Server.mk 1 [] { kv := [] })
      { id := 0, command := Command.Nop } []).1 (by decide),
   (recover_reconciliation (Server.mk 1 [] { kv := [] })
      { id := 5, command := Command.Nop } []).2.1 (by decide),
   (recover_reconciliation (Server.mk 1 [] { kv := [] })
      { id := 1, command := Command.Nop } []).2.2 (by decide)⟩

/-- C3: if the WAL append fails during execute, the call returns the
failure, the state is untouched, and the transaction counter has
nonetheless been incremented by one. -/
theorem execute_append_failure {σ : Type} (w : WriteAheadLog σ) (s : Server σ)
    (q : String) (e : Err)
    (h : w.append s.write_ahead_log
      { id := s.transaction_id, command := Server.parse q } = Except.error e) :
    (Server.execute w s q).2 = Except.error e ∧
    (Server.execute w s q).1.state = s.state ∧
    (Server.execute w s q).1.transaction_id = s.transaction_id + 1 := by
  simp only [Server.execute]
  rw [h]
  exact ⟨rfl, rfl, rfl⟩

theorem execute_append_failure_witness :
    (Server.execute FailingWriteAheadLog (Server.new ()) "SET a b").2 =
      Except.error Err.ioErr ∧
    (Server.execute FailingWriteAheadLog (Server.new ()) "SET a b").1.state =
      (Server.new ()).state ∧
    (Server.execute FailingWriteAheadLog (Server.new ()) "SET a b").1.transaction_id =
      (Server.new ()).transaction_id + 1 :=
  execute_append_failure FailingWriteAheadLog (Server.new ()) "SET a b" Err.ioErr rfl

/-- C4: appending any sequence of transactions to the fresh in-memory
backend succeeds, and a subsequent replay yields exactly that sequence
of success elements, in order. -/
theorem append_then_replay (ts : List Transaction) :
    ∃ d, appendAll InMemoryWriteAheadLog [] ts = Except.ok d ∧
      InMemoryWriteAheadLog.replay d = Except.ok (ts.map Except.ok) :=
  ⟨ts, by simpa using appendAll_inmem ts [], rfl⟩

/-- C5: if a recovery over the in-memory backend succeeds, running
recover again on the resulting server succeeds, applies nothing, and
leaves the server (state and counter) unchanged. -/
theorem recover_idempotent (s s1 : Server (List Transaction))
    (h : Server.recover InMemoryWriteAheadLog s = (s1, Except.ok ())) :
    Server.recover InMemoryWriteAheadLog s1 = (s1, Except.ok ()) := by
  rw [recover_inmem] at h ⊢
  have hwal : s1.write_ahead_log = s.write_ahead_log := by
    have h2 := recoverLoop_wal (σ := List Transaction) (s.write_ahead_log.map Except.ok) s
    rw [h] at h2
    exact h2
  rw [hwal]
  exact recoverLoop_skip_all _ s1 (recoverLoop_ok_ids _ s s1 h)

theorem recover_idempotent_witness :
    Server.recover InMemoryWriteAheadLog
      (Server.mk 1 [{ id := 0, command := Command.Set "a" "b" }] { kv := [("a", "b")] }) =
      (Server.mk 1 [{ id := 0, command := Command.Set "a" "b" }] { kv := [("a", "b")] },
        Except.ok ()) :=
  recover_idempotent (Server.new [{ id := 0, command := Command.Set "a" "b" }])
    (Server.mk 1 [{ id := 0, command := Command.Set "a" "b" }] { kv := [("a", "b")] })
    (by decide)

/-- C6: once the on-disk replay iterator yields a failure element, every
subsequent pull yields no element; in particular one valid line
followed by a corrupt line yields exactly one transaction, then one
decode failure, then nothing. -/
theorem replay_exhausted_after_failure :
    (∀ (it it2 : OnDiskReplayIterator) (e : Err),
      it.next = (some (Except.error e), it2) →
      ∀ n : Nat, (it2.pullN n).1 = none) ∧
    ∀ (t : Transaction) (n : Nat),
      OnDiskReplayIterator.takeItems
        { lines := [LineRead.line (some t), LineRead.line none], error := false }
        (n + 2) = [Except.ok t, Except.error Err.decodeErr] := by
  constructor
  · intro it it2 e h n
    rw [pullN_error_true it2 (next_failure_sets_error it it2 e h) n]
  · intro t n
    have h2 : OnDiskReplayIterator.takeItems { lines := [], error := true } n = [] :=
      takeItems_error_true _ rfl n
    simp [OnDiskReplayIterator.takeItems, OnDiskReplayIterator.next, h2]

theorem replay_exhausted_after_failure_witness :
    (OnDiskReplayIterator.pullN { lines := [], error := true } 3).1 = none :=
  replay_exhausted_after_failure.1
    { lines := [LineRead.line none], error := false }
    { lines := [], error := true } Err.decodeErr (by decide) 3

/-- C7: applying Set overwrites the binding for the key, leaves other
keys alone, and returns the empty string; applying Get leaves the state
unchanged and returns the stored value or the empty string; applying
Nop changes nothing; moreover SET k 1, SET k 2, GET k returns "2" and
GET on a never-set key returns the empty string. -/
theorem apply_semantics :
    (∀ (s : State) (i : Nat) (k v : String),
      kvLookup ((s.apply { id := i, command := Command.Set k v }).1).kv k = some v ∧
      (∀ k2, k2 ≠ k →
        kvLookup ((s.apply { id := i, command := Command.Set k v }).1).kv k2 =
          kvLookup s.kv k2) ∧
      (s.apply { id := i, command := Command.Set k v }).2 = "") ∧
    (∀ (s : State) (i : Nat) (k : String),
      (s.apply { id := i, command := Command.Get k }).1 = s ∧
      (s.apply { id := i, command := Command.Get k }).2 = (kvLookup s.kv k).getD "") ∧
    (∀ (s : State) (i : Nat), s.apply { id := i, command := Command.Nop } = (s, "")) ∧
    (Server.execute InMemoryWriteAheadLog
      (Server.executeAll InMemoryWriteAheadLog (Server.new ([] : List Transaction))
        ["SET k 1", "SET k 2"]) "GET k").2 = Except.ok "2" ∧
    (Server.execute InMemoryWriteAheadLog
      (Server.new ([] : List Transaction)) "GET missing").2 = Except.ok "" := by
  refine ⟨fun s i k v => ⟨?_, fun k2 h => ?_, rfl⟩, fun s i k => ⟨rfl, rfl⟩,
    fun s i => rfl, by decide, by decide⟩
  · exact kvLookup_kvInsert_self s.kv k v
  · exact kvLookup_kvInsert_ne s.kv k v k2 h

theorem apply_semantics_witness :
    kvLookup ((State.apply { kv := [("a", "x")] }
      { id := 0, command := Command.Set "b" "y" }).1).kv "a" =
      kvLookup [("a", "x")] "a" :=
  (apply_semantics.1 { kv := [("a", "x")] } 0 "b" "y").2.1 "a" (by decide)

/-- C8: parsing is total by construction; exactly the two tokens GET, k
parse to Get k, exactly the three tokens SET, k, v parse to Set k v,
and every other token list parses to Nop. -/
theorem parse_total_shape (q : String) :
    (∀ k, splitWhitespace q = ["GET", k] → Server.parse q = Command.Get k) ∧
    (∀ k v, splitWhitespace q = ["SET", k, v] → Server.parse q = Command.Set k v) ∧
    ((∀ k, splitWhitespace q ≠ ["GET", k]) →
      (∀ k v, splitWhitespace q ≠ ["SET", k, v]) →
      Server.parse q = Command.Nop) := by
  refine ⟨fun k h => ?_, fun k v h => ?_, fun h1 h2 => ?_⟩
  · rw [Server.parse]
    split
    · rename_i x key heq
      rw [h] at heq
      simp only [List.cons.injEq] at heq
      rw [heq.2.1]
    · rename_i x key value heq
      rw [h] at heq
      simp at heq
    · rename_i x hget hset
      exact (hget k h).elim
  · rw [Server.parse]
    split
    · rename_i x key heq
      rw [h] at heq
      simp at heq
    · rename_i x key value heq
      rw [h] at heq
      simp only [List.cons.injEq] at heq
      rw [heq.2.1, heq.2.2.1]
    · rename_i x hget hset
      exact (hset k v h).elim
  · rw [Server.parse]
    split
    · rename_i x key heq
      exact (h1 key heq).elim
    · rename_i x key value heq
      exact (h2 key value heq).elim
    · rfl

theorem parse_total_shape_witness :
    Server.parse "GET k" = Command.Get "k" ∧
    Server.parse "SET a b" = Command.Set "a" "b" ∧
    Server.parse "hello" = Command.Nop :=
  ⟨(parse_total_shape "GET k").1 "k" (by decide),
   (parse_total_shape "SET a b").2.1 "a" "b" (by decide),
   (parse_total_shape "hello").2.2
     (fun k h => by
       rw [show splitWhitespace "hello" = ["hello"] from by decide] at h
       simp at h)
     (fun k v h => by
       rw [show splitWhitespace "hello" = ["hello"] from by decide] at h
       simp at h)⟩

/-- C9: every execute against the in-memory backend appends exactly one
transaction, whose id is the counter before the call, increments the
counter by one, and succeeds — whatever command the query parses to. -/
theorem execute_logs_every_command (s : Server (List Transaction)) (q : String) :
    (Server.execute InMemoryWriteAheadLog s q).1.write_ahead_log =
      s.write_ahead_log ++ [{ id := s.transaction_id, command := Server.parse q }] ∧
    (Server.execute InMemoryWriteAheadLog s q).1.transaction_id = s.transaction_id + 1 ∧
    ∃ r, (Server.execute InMemoryWriteAheadLog s q).2 = Except.ok r := by
  cases s with
  | mk n d st => exact ⟨rfl, rfl, _, rfl⟩

/-- C10: if the recovery loop fails after successfully consuming an
initial segment, it returns the server exactly as that segment left it
(applied transactions stay applied, the counter stays advanced), with
the error. -/
theorem recover_not_atomic {σ : Type} (s s1 : Server σ)
    (good : List (Except Err Transaction)) (bad : Except Err Transaction)
    (rest : List (Except Err Transaction))
    (hgood : Server.recoverLoop s good = (s1, Except.ok ()))
    (hbad : (∃ e, bad = Except.error e) ∨
      ∃ t, bad = Except.ok t ∧ s1.transaction_id < t.id) :
    ∃ e, Server.recoverLoop s (good ++ bad :: rest) = (s1, Except.error e) := by
  rw [recoverLoop_append_ok good (bad :: rest) s s1 hgood]
  rcases hbad with ⟨e, rfl⟩ | ⟨t, rfl, hgt⟩
  · exact ⟨e, rfl⟩
  · refine ⟨Err.sequencing t.id s1.transaction_id, ?_⟩
    have h1 : ¬ t.id < s1.transaction_id := by omega
    simp [Server.recoverLoop, h1, hgt]

theorem recover_not_atomic_witness :
    ∃ e, Server.recoverLoop (Server.new ([] : List Transaction))
      ([Except.ok { id := 0, command := Command.Nop }] ++
        [Except.ok { id := 5, command := Command.Nop }]) =
      (Server.mk 1 [] { kv := [] }, Except.error e) :=
  recover_not_atomic (Server.new ([] : List Transaction)) (Server.mk 1 [] { kv := [] })
    [Except.ok { id := 0, command := Command.Nop }]
    (Except.ok { id := 5, command := Command.Nop }) []
    (by decide)
    (Or.inr ⟨{ id := 5, command := Command.Nop }, rfl, by decide⟩)

end Keyval
